import Mathlib

/-!
Shallow embedding of `cargo2args` (src/main.rs): a program that flattens a JSON
configuration value into a shell-style argument string, optionally passing the
result through a template engine.  Rust `panic!` is modelled as `Option.none`;
the template pass returns `Except` (a recoverable error), matching the source's
`anyhow::Result` wrapper around the template engine.
-/

namespace Cargo2Args

/-- JSON values as parsed by the JSON parser, restricted to the shapes the
program dispatches on.  Objects keep their fields in document (insertion)
order, as the program's own tests require.  A `num` carries the string
rendering of its `f64` value (Rust `Display`), since the program only ever
observes numbers through `as_f64().unwrap()` followed by string formatting. -/
inductive Value where
  | obj (fields : List (String × Value))
  | arr (items : List Value)
  | str (s : String)
  | num (rendered : String)
  | bool (b : Bool)
  | null
deriving Repr, Inhabited

/-- Rust `str::trim_end`: drop trailing whitespace characters. -/
def trimEnd (s : String) : String :=
  String.mk ((s.data.reverse.dropWhile Char.isWhitespace).reverse)

/-- Rust `[String]::join(" ")`. -/
def joinSpace : List String → String
  | [] => ""
  | [x] => x
  | x :: y :: xs => x ++ " " ++ joinSpace (y :: xs)

/-- `convert_vec_to_string_vec` (src/main.rs:120-137): stringify the elements
of an array; `none` models the `panic!` on an element that is neither a
number nor a string. -/
def convert_vec_to_string_vec : List Value → Option (List String)
  | [] => some []
  | .num r :: rest => (convert_vec_to_string_vec rest).map (r :: ·)
  | .str s :: rest => (convert_vec_to_string_vec rest).map (s :: ·)
  | _ :: _ => none

/-- Byte index of the first occurrence of `c`, i.e. Rust `str::find(char)`. -/
def findCharByteIdx : List Char → Char → Option Nat
  | [], _ => none
  | a :: rest, c =>
    if a = c then some 0
    else (findCharByteIdx rest c).map (· + a.utf8Size)

/-- The flag text emitted for `key_name` (src/main.rs:64-70): nothing when the
first occurrence of `_` is at byte 0, otherwise `-key ` when the byte length
is 1 and `--key ` for any other byte length. -/
def flagFor (key_name : String) : String :=
  if findCharByteIdx key_name.data '_' = some 0 then ""
  else if key_name.utf8ByteSize = 1 then "-" ++ key_name ++ " "
  else "--" ++ key_name ++ " "

/-- The object loop of `generate_args_string` (src/main.rs:52-98), processing
the fields of an object with an optional inherited key path `pre`.  The Rust
code accumulates into a mutable string; this embedding concatenates the same
pieces in the same order.  `none` models the `panic!` on an unsupported field
value (src/main.rs:95-97) or array element. -/
def genObjectFields : List (String × Value) → Option String → Option String
  | [], _ => some ""
  | (key, item) :: rest, pre =>
    let key_name := pre.getD "" ++ key
    match item with
    | .obj f2 =>
      (genObjectFields f2 (some (key_name ++ "."))).bind fun nested =>
        (genObjectFields rest pre).map fun restS =>
          trimEnd nested ++ " " ++ restS
    | .num r =>
      (genObjectFields rest pre).map fun restS =>
        flagFor key_name ++ (r ++ " ") ++ restS
    | .str s =>
      (genObjectFields rest pre).map fun restS =>
        flagFor key_name ++ (s ++ " ") ++ restS
    | .null =>
      (genObjectFields rest pre).map fun restS =>
        flagFor key_name ++ restS
    | .arr items =>
      (convert_vec_to_string_vec items).bind fun l =>
        (genObjectFields rest pre).map fun restS =>
          flagFor key_name ++ (joinSpace l ++ " ") ++ restS
    | .bool _ => none

/-- `generate_args_string` (src/main.rs:46-118).  For an object the field loop
runs; otherwise the else-branch (src/main.rs:99-115) renders an array, number
or string directly and leaves anything else (null, boolean) as the empty
accumulator.  The built string is right-trimmed before being returned
(src/main.rs:117). -/
def generate_args_string (config : Value) (pre : Option String) : Option String :=
  match config with
  | .obj fields => (genObjectFields fields pre).map trimEnd
  | .arr items =>
    (convert_vec_to_string_vec items).map fun l => trimEnd (joinSpace l ++ " ")
  | .num r => some (trimEnd (r ++ " "))
  | .str s => some (trimEnd (s ++ " "))
  | .null => some (trimEnd "")
  | .bool _ => some (trimEnd "")

/-! ### Auxiliary predicates and renderings used in claim statements -/

/-- A value the leaf dispatch renders as a single scalar token. -/
def isScalar : Value → Bool
  | .num _ => true
  | .str _ => true
  | _ => false

/-- A value that is an object or an array: unsupported inside arrays. -/
def isContainer : Value → Bool
  | .obj _ => true
  | .arr _ => true
  | _ => false

/-- The token text of a scalar leaf. -/
def leafRender : Value → String
  | .num r => r
  | .str s => s
  | _ => ""

/-- The flag token without its separating space: `-k` when the key has UTF-8
byte length 1, `--k` otherwise. -/
def flagToken (k : String) : String :=
  (if k.utf8ByteSize = 1 then "-" else "--") ++ k

/-- A value the field loop handles without recursing and without panicking. -/
def emitsLeaf : Value → Bool
  | .num _ => true
  | .str _ => true
  | .null => true
  | .arr _ => true
  | _ => false

/-- The value-token text (with its trailing space) that a non-object field
pushes after its optional flag; `none` models the panic on arrays with
unsupported elements. -/
def leafOut : Value → Option String
  | .num r => some (r ++ " ")
  | .str s => some (s ++ " ")
  | .null => some ""
  | .arr items => (convert_vec_to_string_vec items).map fun l => joinSpace l ++ " "
  | _ => none

/-- Plain concatenation of emitted pieces. -/
def sJoin : List String → String
  | [] => ""
  | x :: xs => x ++ sJoin xs

/-- A string that is nonempty and does not end in whitespace. -/
def solidStr (s : String) : Bool :=
  match s.data.reverse with
  | [] => false
  | c :: _ => !c.isWhitespace

/-- The dotted leaf expansion of an object's fields: every leaf descendant of
the tree paired with its dot-joined key path. -/
def specPairs (pre : String) : List (String × Value) → List (String × Value)
  | [] => []
  | (k, .obj f2) :: rest => specPairs (pre ++ k ++ ".") f2 ++ specPairs pre rest
  | (k, v) :: rest => (pre ++ k, v) :: specPairs pre rest

/-- Object trees whose leaves are scalars with solid renderings and whose
nested objects are nonempty; on these the recursion's internal trimming is
the identity, so the output decomposes leaf by leaf. -/
def goodFields : List (String × Value) → Bool
  | [] => true
  | (_, .obj f2) :: rest => !f2.isEmpty && (goodFields f2 && goodFields rest)
  | (_, .num r) :: rest => solidStr r && goodFields rest
  | (_, .str s) :: rest => solidStr s && goodFields rest
  | (_, _) :: _ => false

/-! ### Template evaluation (spec-modelled)

The template engine (the `tera` crate) is an external dependency whose code
is not part of this repository; `eval_as_tera_template` (src/main.rs:139-142)
only wraps its `one_off` call.  The engine is therefore modelled from the
spec: the pass fails, recoverably, exactly when the body's control markup is
malformed (an unterminated tag) or unbalanced (`for` and `endfor` tags that
do not nest); otherwise it returns the rendered string.  The rendering of a
well-formed body is abstracted by `renderModel`. -/

/-- Modelled from the spec: the recoverable error of the template pass, in
contrast with the flattener's panics (`Option.none` above). -/
inductive TemplateError where
  | badTemplate
deriving Repr, DecidableEq

mutual

/-- Modelled from the spec: scan the body for control tags `\x7b% ... %\x7d`,
returning the list of tag bodies, or `none` when a tag never opens cleanly
into a closed tag (an unterminated tag). -/
def scanTags : List Char → Option (List String)
  | [] => some []
  | '\x7b' :: '%' :: rest => scanBody rest []
  | _ :: rest => scanTags rest
termination_by l => l.length

/-- Modelled from the spec: collect one control tag's body up to the closing
`%\x7d`; `none` when the input ends inside the tag. -/
def scanBody : List Char → List Char → Option (List String)
  | [], _ => none
  | '%' :: '\x7d' :: rest, acc => (scanTags rest).map (String.mk acc.reverse :: ·)
  | c :: rest, acc => scanBody rest (c :: acc)
termination_by l _ => l.length

end

/-- The first space-delimited word of a tag body (its control keyword). -/
def firstWord (s : String) : String :=
  String.mk ((s.data.dropWhile (fun c => c == ' ')).takeWhile (fun c => c != ' '))

/-- Modelled from the spec: the block-nesting contribution of one tag. -/
def tagDelta (t : String) : Int :=
  if firstWord t = "for" then 1 else if firstWord t = "endfor" then -1 else 0

/-- Modelled from the spec: check `for`/`endfor` nesting with a depth
counter. -/
def checkBalance : List String → Nat → Bool
  | [], d => d == 0
  | t :: ts, d =>
    if firstWord t = "for" then checkBalance ts (d + 1)
    else if firstWord t = "endfor" then
      match d with
      | 0 => false
      | d2 + 1 => checkBalance ts d2
    else checkBalance ts d

/-- Modelled from the spec: a body whose control markup is acceptable. -/
def tagsWellFormed (t : String) : Bool :=
  match scanTags t.data with
  | none => false
  | some ts => checkBalance ts 0

/-- Modelled from the spec: the rendering of a well-formed body, abstracted
(the claim under verification concerns only the error/success split). -/
def renderModel (t : String) : String := t

/-- `eval_as_tera_template` (src/main.rs:139-142) over the modelled engine:
a recoverable `Except`, never a panic. -/
def eval_as_tera_template (t : String) : Except TemplateError String :=
  if tagsWellFormed t then .ok (renderModel t) else .error .badTemplate

/-- Balanced control markup, characterized arithmetically: the scan succeeds,
`for` and `endfor` tags match in count, and no prefix of the tag list closes
more blocks than it has opened. -/
def BalancedTemplate (t : String) : Prop :=
  ∃ ts, scanTags t.data = some ts ∧ (ts.map tagDelta).sum = 0 ∧
    ∀ i, 0 ≤ ((ts.take i).map tagDelta).sum

/-! ### Termination: a fuel-indexed version of the field loop -/

/-- `genObjectFields` with an explicit recursion budget: the outer `Option`
is `none` when the budget is exhausted; the inner `Option` is the panic
modelling of `genObjectFields`. -/
def genObjectFieldsFuel : Nat → List (String × Value) → Option String →
    Option (Option String)
  | 0, _, _ => none
  | _ + 1, [], _ => some (some "")
  | n + 1, (key, item) :: rest, pre =>
    let key_name := pre.getD "" ++ key
    match item with
    | .obj f2 =>
      match genObjectFieldsFuel n f2 (some (key_name ++ ".")),
          genObjectFieldsFuel n rest pre with
      | some nestedR, some restR =>
        some (nestedR.bind fun nested => restR.map fun restS =>
          trimEnd nested ++ " " ++ restS)
      | _, _ => none
    | .num r =>
      (genObjectFieldsFuel n rest pre).map fun restR =>
        restR.map fun restS => flagFor key_name ++ (r ++ " ") ++ restS
    | .str s =>
      (genObjectFieldsFuel n rest pre).map fun restR =>
        restR.map fun restS => flagFor key_name ++ (s ++ " ") ++ restS
    | .null =>
      (genObjectFieldsFuel n rest pre).map fun restR =>
        restR.map fun restS => flagFor key_name ++ restS
    | .arr items =>
      (genObjectFieldsFuel n rest pre).map fun restR =>
        (convert_vec_to_string_vec items).bind fun l =>
          restR.map fun restS => flagFor key_name ++ (joinSpace l ++ " ") ++ restS
    | .bool _ => some none

/-- `generate_args_string` with the same explicit budget. -/
def generate_args_string_fuel (n : Nat) (config : Value) (pre : Option String) :
    Option (Option String) :=
  match config with
  | .obj fields => (genObjectFieldsFuel n fields pre).map (Option.map trimEnd)
  | .arr items =>
    some ((convert_vec_to_string_vec items).map fun l => trimEnd (joinSpace l ++ " "))
  | .num r => some (some (trimEnd (r ++ " ")))
  | .str s => some (some (trimEnd (s ++ " ")))
  | .null => some (some (trimEnd ""))
  | .bool _ => some (some (trimEnd ""))


/-! ### Lemmas about `trimEnd` and joins -/

theorem dropWhile_dropWhile (p : Char → Bool) (l : List Char) :
    List.dropWhile p (List.dropWhile p l) = List.dropWhile p l := by
  induction l with
  | nil => rfl
  | cons a t ih =>
    by_cases h : p a = true
    · rw [List.dropWhile_cons_of_pos h, ih]
    · rw [List.dropWhile_cons_of_neg (by simp [h]),
        List.dropWhile_cons_of_neg (by simp [h])]

theorem trimEnd_append_space (s : String) : trimEnd (s ++ " ") = trimEnd s := by
  apply String.ext
  show ((s.data ++ [' ']).reverse.dropWhile Char.isWhitespace).reverse
      = (s.data.reverse.dropWhile Char.isWhitespace).reverse
  rw [List.reverse_append]
  simp only [List.reverse_cons, List.reverse_nil, List.nil_append,
    List.singleton_append]
  rw [List.dropWhile_cons_of_pos (by decide)]

theorem trimEnd_of_solid (s : String) (h : solidStr s = true) : trimEnd s = s := by
  apply String.ext
  show (s.data.reverse.dropWhile Char.isWhitespace).reverse = s.data
  unfold solidStr at h
  cases hrev : s.data.reverse with
  | nil => rw [hrev] at h; simp at h
  | cons c t =>
    rw [hrev] at h
    simp only [Bool.not_eq_true'] at h
    have hdrop : List.dropWhile Char.isWhitespace (c :: t) = c :: t :=
      List.dropWhile_cons_of_neg (by simp [h])
    rw [hdrop, ← hrev, List.reverse_reverse]

theorem solid_append (a b : String) (h : solidStr b = true) :
    solidStr (a ++ b) = true := by
  unfold solidStr at *
  rw [String.data_append, List.reverse_append]
  cases hrev : b.data.reverse with
  | nil => rw [hrev] at h; simp at h
  | cons c t => rw [hrev] at h; simp_all

theorem solid_has_nonws (s : String) (h : solidStr s = true) :
    ∃ c ∈ s.data, c.isWhitespace = false := by
  unfold solidStr at h
  cases hrev : s.data.reverse with
  | nil => rw [hrev] at h; simp at h
  | cons c t =>
    rw [hrev] at h
    simp only [Bool.not_eq_true'] at h
    refine ⟨c, ?_, h⟩
    rw [← List.mem_reverse, hrev]
    exact List.mem_cons_self _ _

theorem trimEnd_append_of_nonws (a b : String)
    (h : ∃ c ∈ b.data, c.isWhitespace = false) :
    trimEnd (a ++ b) = a ++ trimEnd b := by
  apply String.ext
  show ((a.data ++ b.data).reverse.dropWhile Char.isWhitespace).reverse
      = a.data ++ (b.data.reverse.dropWhile Char.isWhitespace).reverse
  rw [List.reverse_append, List.dropWhile_append]
  have hne : b.data.reverse.dropWhile Char.isWhitespace ≠ [] := by
    rw [Ne, List.dropWhile_eq_nil_iff]
    push_neg
    obtain ⟨c, hc, hcw⟩ := h
    exact ⟨c, List.mem_reverse.mpr hc, by simp [hcw]⟩
  rw [if_neg (by simpa using hne), List.reverse_append, List.reverse_reverse]

theorem trimEnd_idem (s : String) : trimEnd (trimEnd s) = trimEnd s := by
  apply String.ext
  show (((s.data.reverse.dropWhile Char.isWhitespace).reverse).reverse.dropWhile
      Char.isWhitespace).reverse
      = (s.data.reverse.dropWhile Char.isWhitespace).reverse
  rw [List.reverse_reverse, dropWhile_dropWhile]

theorem sJoin_append (a b : List String) :
    sJoin (a ++ b) = sJoin a ++ sJoin b := by
  induction a with
  | nil => simp [sJoin]
  | cons x xs ih => simp [sJoin, ih, String.append_assoc]

theorem sJoin_map_space (l : List String) (h : l ≠ []) :
    sJoin (l.map (· ++ " ")) = joinSpace l ++ " " := by
  induction l with
  | nil => cases h rfl
  | cons x xs ih =>
    cases xs with
    | nil => simp [sJoin, joinSpace]
    | cons y ys =>
      calc sJoin (List.map (· ++ " ") (x :: y :: ys))
          = (x ++ " ") ++ sJoin (List.map (· ++ " ") (y :: ys)) := rfl
        _ = (x ++ " ") ++ (joinSpace (y :: ys) ++ " ") := by
              rw [ih (List.cons_ne_nil _ _)]
        _ = ((x ++ " ") ++ joinSpace (y :: ys)) ++ " " := by
              rw [← String.append_assoc]
        _ = joinSpace (x :: y :: ys) ++ " " := rfl

theorem trimEnd_sJoin_spaced (ps : List String)
    (h : ∀ p ∈ ps, ∃ y, solidStr y = true ∧ p = y ++ " ") (hne : ps ≠ []) :
    trimEnd (sJoin ps) ++ " " = sJoin ps := by
  induction ps with
  | nil => cases hne rfl
  | cons p ps ih =>
    obtain ⟨y, hy, hp⟩ := h p (List.mem_cons_self _ _)
    cases ps with
    | nil =>
      show trimEnd (p ++ sJoin []) ++ " " = p ++ sJoin []
      simp only [sJoin, String.append_empty]
      rw [hp, trimEnd_append_space, trimEnd_of_solid _ hy]
    | cons q qs =>
      have hall : ∀ r ∈ q :: qs, ∃ y, solidStr y = true ∧ r = y ++ " " :=
        fun r hr => h r (List.mem_cons_of_mem _ hr)
      have hrest := ih hall (List.cons_ne_nil _ _)
      obtain ⟨y2, hy2, hq⟩ := hall q (List.mem_cons_self _ _)
      have hnonws : ∃ c ∈ (sJoin (q :: qs)).data, c.isWhitespace = false := by
        obtain ⟨c, hc, hcw⟩ := solid_has_nonws y2 hy2
        refine ⟨c, ?_, hcw⟩
        show c ∈ (q ++ sJoin qs).data
        rw [String.data_append]
        apply List.mem_append_left
        rw [hq, String.data_append]
        exact List.mem_append_left _ hc
      show trimEnd (p ++ sJoin (q :: qs)) ++ " " = p ++ sJoin (q :: qs)
      rw [trimEnd_append_of_nonws _ _ hnonws, String.append_assoc, hrest]

/-! ### Characterizing the underscore skip and the flag text -/

theorem findCharByteIdx_head (l : List Char) (c : Char) :
    findCharByteIdx l c = some 0 ↔ l.head? = some c := by
  cases l with
  | nil => simp [findCharByteIdx]
  | cons a rest =>
    by_cases h : a = c
    · simp [findCharByteIdx, h]
    · have heq : findCharByteIdx (a :: rest) c
          = (findCharByteIdx rest c).map (· + a.utf8Size) := by
        simp [findCharByteIdx, h]
      rw [heq]
      simp only [List.head?_cons, Option.some.injEq]
      constructor
      · intro hsome
        exfalso
        obtain ⟨i, hi, hadd⟩ := Option.map_eq_some'.mp hsome
        have hadd2 : i + a.utf8Size = 0 := hadd
        have := Char.utf8Size_pos a
        omega
      · intro h2
        exact absurd h2 h

theorem flagFor_eq_if (s : String) :
    flagFor s = if s.data.head? = some '_' then "" else flagToken s ++ " " := by
  by_cases h : s.data.head? = some '_'
  · rw [if_pos h]
    unfold flagFor
    rw [if_pos ((findCharByteIdx_head s.data '_').mpr h)]
  · rw [if_neg h]
    unfold flagFor flagToken
    rw [if_neg (fun hc => h ((findCharByteIdx_head s.data '_').mp hc))]
    by_cases h1 : s.utf8ByteSize = 1
    · rw [if_pos h1, if_pos h1, String.append_assoc]
    · rw [if_neg h1, if_neg h1, String.append_assoc]

/-! ### Array conversion lemmas -/

theorem convert_all_scalar (items : List Value)
    (h : ∀ v ∈ items, isScalar v = true) :
    convert_vec_to_string_vec items = some (items.map leafRender) := by
  induction items with
  | nil => rfl
  | cons v rest ih =>
    have hv := h v (List.mem_cons_self _ _)
    have hrest := ih fun w hw => h w (List.mem_cons_of_mem _ hw)
    cases v with
    | num r => simp [convert_vec_to_string_vec, hrest, leafRender]
    | str s => simp [convert_vec_to_string_vec, hrest, leafRender]
    | obj f => simp [isScalar] at hv
    | arr l => simp [isScalar] at hv
    | bool b => simp [isScalar] at hv
    | null => simp [isScalar] at hv

theorem convert_none_of_container (items : List Value) (e : Value)
    (he : e ∈ items) (hc : isContainer e = true) :
    convert_vec_to_string_vec items = none := by
  induction items with
  | nil => cases he
  | cons v rest ih =>
    cases List.mem_cons.mp he with
    | inl h =>
      subst h
      cases e with
      | obj f => rfl
      | arr l => rfl
      | num r => simp [isContainer] at hc
      | str s => simp [isContainer] at hc
      | bool b => simp [isContainer] at hc
      | null => simp [isContainer] at hc
    | inr h =>
      cases v with
      | num r => simp [convert_vec_to_string_vec, ih h]
      | str s => simp [convert_vec_to_string_vec, ih h]
      | obj f => rfl
      | arr l => rfl
      | bool b => rfl
      | null => rfl

/-! ### The flat-object decomposition -/

theorem genObjectFields_scalars (fields : List (String × Value))
    (pre : Option String) (h : ∀ p ∈ fields, isScalar p.2 = true) :
    genObjectFields fields pre =
      some (sJoin (fields.map fun p =>
        flagFor (pre.getD "" ++ p.1) ++ (leafRender p.2 ++ " "))) := by
  induction fields with
  | nil => simp [genObjectFields, sJoin]
  | cons p rest ih =>
    obtain ⟨k, v⟩ := p
    have hv := h _ (List.mem_cons_self _ _)
    have hrest := ih fun q hq => h q (List.mem_cons_of_mem _ hq)
    cases v with
    | num r => simp [genObjectFields, hrest, sJoin, leafRender]
    | str s => simp [genObjectFields, hrest, sJoin, leafRender]
    | obj f => simp [isScalar] at hv
    | arr l => simp [isScalar] at hv
    | bool b => simp [isScalar] at hv
    | null => simp [isScalar] at hv

/-! ### The nested-object (dotted key path) decomposition -/


theorem sizeOf_fields_cons (k : String) (item : Value)
    (rest : List (String × Value)) :
    sizeOf rest < sizeOf ((k, item) :: rest) := by
  simp only [List.cons.sizeOf_spec]
  omega

theorem sizeOf_fields_obj (k : String) (f2 rest : List (String × Value)) :
    sizeOf f2 < sizeOf ((k, Value.obj f2) :: rest) := by
  simp only [List.cons.sizeOf_spec, Prod.mk.sizeOf_spec, Value.obj.sizeOf_spec]
  omega

theorem specPairs_good_aux : ∀ (n : Nat) (fields : List (String × Value))
    (pre : String), sizeOf fields < n → goodFields fields = true →
    ∀ p ∈ specPairs pre fields, solidStr (leafRender p.2) = true := by
  intro n
  induction n with
  | zero => intro fields pre h; exact absurd h (Nat.not_lt_zero _)
  | succ n ih =>
    intro fields pre hsz hgood p hp
    match fields with
    | [] => simp [specPairs] at hp
    | (k, item) :: rest =>
      cases item with
      | obj f2 =>
        have h2 : sizeOf f2 < n := by
          have := sizeOf_fields_obj k f2 rest
          omega
        have hr : sizeOf rest < n := by
          have := sizeOf_fields_cons k (Value.obj f2) rest
          omega
        simp only [goodFields, Bool.and_eq_true, Bool.not_eq_true'] at hgood
        simp only [specPairs, List.mem_append] at hp
        cases hp with
        | inl hin => exact ih f2 _ h2 hgood.2.1 p hin
        | inr hin => exact ih rest pre hr hgood.2.2 p hin
      | num r =>
        have hr : sizeOf rest < n := by
          have := sizeOf_fields_cons k (Value.num r) rest
          omega
        simp only [goodFields, Bool.and_eq_true] at hgood
        simp only [specPairs, List.mem_cons] at hp
        cases hp with
        | inl hin => subst hin; simpa [leafRender] using hgood.1
        | inr hin => exact ih rest pre hr hgood.2 p hin
      | str s =>
        have hr : sizeOf rest < n := by
          have := sizeOf_fields_cons k (Value.str s) rest
          omega
        simp only [goodFields, Bool.and_eq_true] at hgood
        simp only [specPairs, List.mem_cons] at hp
        cases hp with
        | inl hin => subst hin; simpa [leafRender] using hgood.1
        | inr hin => exact ih rest pre hr hgood.2 p hin
      | arr l => simp [goodFields] at hgood
      | bool b => simp [goodFields] at hgood
      | null => simp [goodFields] at hgood

theorem specPairs_ne_nil_aux : ∀ (n : Nat) (fields : List (String × Value))
    (pre : String), sizeOf fields < n → goodFields fields = true →
    fields ≠ [] → specPairs pre fields ≠ [] := by
  intro n
  induction n with
  | zero => intro fields pre h; exact absurd h (Nat.not_lt_zero _)
  | succ n ih =>
    intro fields pre hsz hgood hne
    match fields with
    | [] => exact absurd rfl hne
    | (k, item) :: rest =>
      cases item with
      | obj f2 =>
        have h2 : sizeOf f2 < n := by
          have := sizeOf_fields_obj k f2 rest
          omega
        simp only [goodFields, Bool.and_eq_true, Bool.not_eq_true'] at hgood
        have hf2 : f2 ≠ [] := by
          intro hnil
          rw [hnil] at hgood
          simp at hgood
        have := ih f2 (pre ++ k ++ ".") h2 hgood.2.1 hf2
        simp only [specPairs]
        intro happ
        exact this (List.append_eq_nil.mp happ).1
      | num r => simp [specPairs]
      | str s => simp [specPairs]
      | arr l => simp [goodFields] at hgood
      | bool b => simp [goodFields] at hgood
      | null => simp [goodFields] at hgood

theorem spaced_pieces (pairs : List (String × Value))
    (h : ∀ p ∈ pairs, solidStr (leafRender p.2) = true) :
    ∀ q ∈ pairs.map (fun p => flagFor p.1 ++ (leafRender p.2 ++ " ")),
      ∃ y, solidStr y = true ∧ q = y ++ " " := by
  intro q hq
  obtain ⟨p, hp, rfl⟩ := List.mem_map.mp hq
  exact ⟨flagFor p.1 ++ leafRender p.2,
    solid_append _ _ (h p hp), by rw [String.append_assoc]⟩

theorem genObjectFields_good_aux : ∀ (n : Nat) (fields : List (String × Value))
    (pre : Option String), sizeOf fields < n → goodFields fields = true →
    genObjectFields fields pre =
      some (sJoin ((specPairs (pre.getD "") fields).map fun p =>
        flagFor p.1 ++ (leafRender p.2 ++ " "))) := by
  intro n
  induction n with
  | zero => intro fields pre h; exact absurd h (Nat.not_lt_zero _)
  | succ n ih =>
    intro fields pre hsz hgood
    match fields with
    | [] => simp [genObjectFields, specPairs, sJoin]
    | (k, item) :: rest =>
      cases item with
      | obj f2 =>
        have h2 : sizeOf f2 < n := by
          have := sizeOf_fields_obj k f2 rest
          omega
        have hr : sizeOf rest < n := by
          have := sizeOf_fields_cons k (Value.obj f2) rest
          omega
        simp only [goodFields, Bool.and_eq_true, Bool.not_eq_true'] at hgood
        have hf2 : f2 ≠ [] := by
          intro hnil
          rw [hnil] at hgood
          simp at hgood
        have hin := ih f2 (some (pre.getD "" ++ k ++ ".")) h2 hgood.2.1
        have hre := ih rest pre hr hgood.2.2
        have hinner : trimEnd (sJoin ((specPairs (pre.getD "" ++ k ++ ".") f2).map
            fun p => flagFor p.1 ++ (leafRender p.2 ++ " "))) ++ " "
            = sJoin ((specPairs (pre.getD "" ++ k ++ ".") f2).map
                fun p => flagFor p.1 ++ (leafRender p.2 ++ " ")) := by
          apply trimEnd_sJoin_spaced
          · exact spaced_pieces _ (specPairs_good_aux (sizeOf f2 + 1) f2 _
              (by omega) hgood.2.1)
          · simp only [Ne, List.map_eq_nil_iff]
            exact specPairs_ne_nil_aux (sizeOf f2 + 1) f2 _ (by omega)
              hgood.2.1 hf2
        have hred : genObjectFields ((k, Value.obj f2) :: rest) pre
            = some (trimEnd (sJoin ((specPairs (pre.getD "" ++ k ++ ".") f2).map
                fun p => flagFor p.1 ++ (leafRender p.2 ++ " "))) ++ " " ++
              sJoin ((specPairs (pre.getD "") rest).map
                fun p => flagFor p.1 ++ (leafRender p.2 ++ " "))) := by
          simp [genObjectFields, hin, hre]
        rw [hred]
        simp only [specPairs, List.map_append]
        rw [sJoin_append, hinner]
      | num r =>
        have hr : sizeOf rest < n := by
          have := sizeOf_fields_cons k (Value.num r) rest
          omega
        simp only [goodFields, Bool.and_eq_true] at hgood
        have hre := ih rest pre hr hgood.2
        simp only [genObjectFields, hre, Option.map_some', Option.some.injEq]
        simp [specPairs, sJoin, leafRender]
      | str s =>
        have hr : sizeOf rest < n := by
          have := sizeOf_fields_cons k (Value.str s) rest
          omega
        simp only [goodFields, Bool.and_eq_true] at hgood
        have hre := ih rest pre hr hgood.2
        simp only [genObjectFields, hre, Option.map_some', Option.some.injEq]
        simp [specPairs, sJoin, leafRender]
      | arr l => simp [goodFields] at hgood
      | bool b => simp [goodFields] at hgood
      | null => simp [goodFields] at hgood


theorem checkBalance_iff (ts : List String) (d : Nat) :
    checkBalance ts d = true ↔
      ((d : Int) + (ts.map tagDelta).sum = 0 ∧
        ∀ i, 0 ≤ (d : Int) + ((ts.take i).map tagDelta).sum) := by
  induction ts generalizing d with
  | nil =>
    simp only [checkBalance, beq_iff_eq, List.map_nil, List.sum_nil,
      List.take_nil, Int.add_zero]
    constructor
    · intro h
      constructor
      · omega
      · intro i; omega
    · intro h
      omega
  | cons t ts ih =>
    by_cases h1 : firstWord t = "for"
    · have hd : tagDelta t = 1 := by simp [tagDelta, h1]
      rw [show checkBalance (t :: ts) d = checkBalance ts (d + 1) by
        simp [checkBalance, h1]]
      rw [ih]
      simp only [List.map_cons, List.sum_cons, hd]
      constructor
      · rintro ⟨hs, hp⟩
        refine ⟨by push_cast at hs ⊢; omega, ?_⟩
        intro i
        cases i with
        | zero => simp only [List.take_zero, List.map_nil, List.sum_nil]; omega
        | succ j =>
          have := hp j
          simp only [List.take_succ_cons, List.map_cons, List.sum_cons, hd]
          push_cast at this ⊢
          omega
      · rintro ⟨hs, hp⟩
        refine ⟨by push_cast at hs ⊢; omega, ?_⟩
        intro i
        have := hp (i + 1)
        simp only [List.take_succ_cons, List.map_cons, List.sum_cons, hd] at this
        push_cast at this ⊢
        omega
    · by_cases h2 : firstWord t = "endfor"
      · have hd : tagDelta t = -1 := by simp [tagDelta, h1, h2]
        cases d with
        | zero =>
          rw [show checkBalance (t :: ts) 0 = false by simp [checkBalance, h1, h2]]
          simp only [List.map_cons, List.sum_cons, hd]
          constructor
          · intro h; cases h
          · rintro ⟨hs, hp⟩
            have := hp 1
            simp only [List.take_succ_cons, List.take_zero, List.map_cons,
              List.map_nil, List.sum_cons, List.sum_nil, hd] at this
            omega
        | succ d2 =>
          rw [show checkBalance (t :: ts) (d2 + 1) = checkBalance ts d2 by
            simp [checkBalance, h1, h2]]
          rw [ih]
          simp only [List.map_cons, List.sum_cons, hd]
          constructor
          · rintro ⟨hs, hp⟩
            refine ⟨by push_cast at hs ⊢; omega, ?_⟩
            intro i
            cases i with
            | zero => simp only [List.take_zero, List.map_nil, List.sum_nil]; omega
            | succ j =>
              have := hp j
              simp only [List.take_succ_cons, List.map_cons, List.sum_cons, hd]
              push_cast at this ⊢
              omega
          · rintro ⟨hs, hp⟩
            refine ⟨by push_cast at hs ⊢; omega, ?_⟩
            intro i
            have := hp (i + 1)
            simp only [List.take_succ_cons, List.map_cons, List.sum_cons, hd] at this
            push_cast at this ⊢
            omega
      · have hd : tagDelta t = 0 := by simp [tagDelta, h1, h2]
        rw [show checkBalance (t :: ts) d = checkBalance ts d by
          simp [checkBalance, h1, h2]]
        rw [ih]
        simp only [List.map_cons, List.sum_cons, hd]
        constructor
        · rintro ⟨hs, hp⟩
          refine ⟨by omega, ?_⟩
          intro i
          cases i with
          | zero => simp only [List.take_zero, List.map_nil, List.sum_nil]; omega
          | succ j =>
            have := hp j
            simp only [List.take_succ_cons, List.map_cons, List.sum_cons, hd]
            omega
        · rintro ⟨hs, hp⟩
          refine ⟨by omega, ?_⟩
          intro i
          have := hp (i + 1)
          simp only [List.take_succ_cons, List.map_cons, List.sum_cons, hd] at this
          omega

theorem tagsWellFormed_iff (t : String) :
    tagsWellFormed t = true ↔ BalancedTemplate t := by
  unfold tagsWellFormed BalancedTemplate
  cases hscan : scanTags t.data with
  | none => simp
  | some ts =>
    rw [checkBalance_iff]
    simp only [Nat.cast_zero, Int.zero_add, Option.some.injEq]
    constructor
    · rintro ⟨hs, hp⟩
      exact ⟨ts, rfl, hs, hp⟩
    · rintro ⟨ts2, rfl, hs, hp⟩
      exact ⟨hs, hp⟩


theorem genObjectFieldsFuel_spec : ∀ (n : Nat) (fields : List (String × Value))
    (pre : Option String), sizeOf fields < n →
    genObjectFieldsFuel n fields pre = some (genObjectFields fields pre) := by
  intro n
  induction n with
  | zero => intro fields pre h; exact absurd h (Nat.not_lt_zero _)
  | succ n ih =>
    intro fields pre hsz
    match fields with
    | [] => simp [genObjectFieldsFuel, genObjectFields]
    | (k, item) :: rest =>
      have hr : sizeOf rest < n := by
        have := sizeOf_fields_cons k item rest
        omega
      cases item with
      | obj f2 =>
        have h2 : sizeOf f2 < n := by
          have := sizeOf_fields_obj k f2 rest
          omega
        simp [genObjectFieldsFuel, genObjectFields, ih f2 _ h2, ih rest _ hr]
      | num r => simp [genObjectFieldsFuel, genObjectFields, ih rest _ hr]
      | str s => simp [genObjectFieldsFuel, genObjectFields, ih rest _ hr]
      | null => simp [genObjectFieldsFuel, genObjectFields, ih rest _ hr]
      | arr items => simp [genObjectFieldsFuel, genObjectFields, ih rest _ hr]
      | bool b => simp [genObjectFieldsFuel, genObjectFields]

theorem trimEnd_sJoin_map_space (l : List String) :
    trimEnd (sJoin (l.map (· ++ " "))) = trimEnd (joinSpace l) := by
  cases l with
  | nil => rfl
  | cons x xs =>
    rw [sJoin_map_space _ (List.cons_ne_nil _ _), trimEnd_append_space]

theorem genObjectFields_none_of_bad (fields : List (String × Value))
    (pre : Option String) (k : String) (v : Value) (hmem : (k, v) ∈ fields)
    (hbad : (∃ b, v = Value.bool b) ∨
      ∃ items e, v = Value.arr items ∧ e ∈ items ∧ isContainer e = true) :
    genObjectFields fields pre = none := by
  induction hmem with
  | head as =>
    rcases hbad with ⟨b, rfl⟩ | ⟨items, e, rfl, he, hc⟩
    · simp [genObjectFields]
    · simp [genObjectFields, convert_none_of_container items e he hc]
  | tail p hm ih =>
    obtain ⟨k2, v2⟩ := p
    cases v2 with
    | obj f2 =>
      simp only [genObjectFields, ih]
      cases genObjectFields f2 (some (pre.getD "" ++ k2 ++ ".")) <;> simp
    | num r => simp [genObjectFields, ih]
    | str s => simp [genObjectFields, ih]
    | null => simp [genObjectFields, ih]
    | arr items =>
      simp only [genObjectFields, ih]
      cases convert_vec_to_string_vec items <;> simp
    | bool b => simp [genObjectFields]

/-! ### The claims -/

/-- C1 counterexample: a flat object of scalar fields whose key begins with
an underscore gets no flag token at all: flattening `\x7b"_a": 1\x7d` yields
`"1"`, not the flag/value pair `"--_a 1"` that the claim requires for every
field. -/
theorem flat_object_underscore_counterexample :
    generate_args_string (.obj [("_a", .num "1")]) none = some "1" ∧
    ("1" : String) ≠ "--_a 1" := by
  constructor
  · simp only [generate_args_string, genObjectFields]
    rfl
  · decide

/-- C1 (amended): for every flat object of scalar (string/number) fields none
of whose keys begins with an underscore, flattening with no prefix emits one
flag-token/value pair per field, in document order, space-joined and
right-trimmed; the flag is the short form for keys of byte length 1 and the
long form for any other length. -/
theorem flat_object_flag_value_pairs (fields : List (String × Value))
    (h : ∀ p ∈ fields, isScalar p.2 = true ∧ p.1.data.head? ≠ some '_') :
    generate_args_string (.obj fields) none =
      some (trimEnd (joinSpace (fields.map fun p =>
        flagToken p.1 ++ " " ++ leafRender p.2))) := by
  have hs := genObjectFields_scalars fields none (fun p hp => (h p hp).1)
  have hmap : (fields.map fun p =>
        flagFor ((none : Option String).getD "" ++ p.1) ++ (leafRender p.2 ++ " "))
      = (fields.map fun p => flagToken p.1 ++ " " ++ leafRender p.2).map (· ++ " ") := by
    rw [List.map_map]
    apply List.map_congr_left
    intro p hp
    show flagFor ((none : Option String).getD "" ++ p.1) ++ (leafRender p.2 ++ " ")
        = (flagToken p.1 ++ " " ++ leafRender p.2) ++ " "
    rw [show (none : Option String).getD "" ++ p.1 = p.1 by
      simp]
    rw [flagFor_eq_if, if_neg (h p hp).2]
    simp [String.append_assoc]
  simp only [generate_args_string]
  rw [hs, hmap]
  simp only [Option.map_some']
  rw [trimEnd_sJoin_map_space]

/-- C1 witness: the amended claim at the repository's own test input
`\x7b"key1": 1, "b": "udon"\x7d`. -/
theorem flat_object_flag_value_pairs_witness :
    generate_args_string (.obj [("key1", .num "1"), ("b", .str "udon")]) none
      = some "--key1 1 -b udon" := by
  rw [flat_object_flag_value_pairs _ (by decide)]
  rfl

/-- C2: for a field whose value the loop handles without recursing (number,
string, null or array), the flag token is skipped exactly when the first
character of the accumulated key path is an underscore — in which case only
the value tokens appear for that field — and any other such field gets its
flag token first. -/
theorem underscore_skip_iff (pre : Option String) (k : String) (v : Value)
    (rest : List (String × Value)) (hv : emitsLeaf v = true) :
    genObjectFields ((k, v) :: rest) pre =
      (leafOut v).bind fun t => (genObjectFields rest pre).map fun r =>
        if (pre.getD "" ++ k).data.head? = some '_' then t ++ r
        else flagToken (pre.getD "" ++ k) ++ " " ++ (t ++ r) := by
  by_cases hc : (pre.getD "" ++ k).data.head? = some '_'
  · cases v with
    | num r =>
      simp only [genObjectFields, leafOut, flagFor_eq_if, if_pos hc,
        Option.some_bind]
      cases genObjectFields rest pre <;> simp [String.append_assoc]
    | str s =>
      simp only [genObjectFields, leafOut, flagFor_eq_if, if_pos hc,
        Option.some_bind]
      cases genObjectFields rest pre <;> simp [String.append_assoc]
    | null =>
      simp only [genObjectFields, leafOut, flagFor_eq_if, if_pos hc,
        Option.some_bind]
    | arr items =>
      simp only [genObjectFields, leafOut, flagFor_eq_if, if_pos hc]
      cases convert_vec_to_string_vec items with
      | none => simp
      | some l =>
        simp only [Option.map_some', Option.some_bind]
        cases genObjectFields rest pre <;> simp [String.append_assoc]
    | obj f => simp [emitsLeaf] at hv
    | bool b => simp [emitsLeaf] at hv
  · cases v with
    | num r =>
      simp only [genObjectFields, leafOut, flagFor_eq_if, if_neg hc,
        Option.some_bind]
      cases genObjectFields rest pre <;> simp [String.append_assoc]
    | str s =>
      simp only [genObjectFields, leafOut, flagFor_eq_if, if_neg hc,
        Option.some_bind]
      cases genObjectFields rest pre <;> simp [String.append_assoc]
    | null =>
      simp only [genObjectFields, leafOut, flagFor_eq_if, if_neg hc,
        Option.some_bind]
      cases genObjectFields rest pre <;> simp [String.append_assoc]
    | arr items =>
      simp only [genObjectFields, leafOut, flagFor_eq_if, if_neg hc]
      cases convert_vec_to_string_vec items with
      | none => simp
      | some l =>
        simp only [Option.map_some', Option.some_bind]
        cases genObjectFields rest pre <;> simp [String.append_assoc]
    | obj f => simp [emitsLeaf] at hv
    | bool b => simp [emitsLeaf] at hv

/-- C2 witness: the spec's example `\x7b"_skipped_key": 1,
"not_skipped_key": 2\x7d` flattens to `"1 --not_skipped_key 2"`. -/
theorem underscore_skip_iff_witness :
    generate_args_string (.obj [("_skipped_key", .num "1"),
      ("not_skipped_key", .num "2")]) none = some "1 --not_skipped_key 2" := by
  simp only [generate_args_string]
  rw [underscore_skip_iff none "_skipped_key" (Value.num "1") _ (by decide)]
  simp only [genObjectFields]
  rfl

/-- C3: object-valued fields emit no flag token of their own; the flattener
recurses with the key plus a trailing dot appended to the prefix, and (on
trees of nonempty objects with solid scalar leaves) the output is exactly
the flag/value pieces of the dot-joined leaf descendants, in order. -/
theorem nested_object_dotted_leaves (fields : List (String × Value))
    (pre : Option String) (h : goodFields fields = true) :
    generate_args_string (.obj fields) pre =
      some (trimEnd (sJoin ((specPairs (pre.getD "") fields).map fun p =>
        flagFor p.1 ++ (leafRender p.2 ++ " ")))) := by
  simp only [generate_args_string]
  rw [genObjectFields_good_aux (sizeOf fields + 1) fields pre (by omega) h]
  rfl

/-- C3 witness: the spec's nested example flattens with dot-joined keys and
flags only at the leaves. -/
theorem nested_object_dotted_leaves_witness :
    generate_args_string (.obj [("key1", .num "1"), ("key2", .num "2"),
      ("key3", .obj [("k1", .num "3"), ("k2", .num "4"),
        ("k3", .obj [("k4", .num "5")])])]) none
      = some "--key1 1 --key2 2 --key3.k1 3 --key3.k2 4 --key3.k3.k4 5" := by
  rw [nested_object_dotted_leaves _ _ (by simp only [goodFields]; decide)]
  simp only [specPairs]
  rfl

/-- C4: an array-valued field of scalar (number/string) elements produces
exactly one flag token (subject to the underscore skip inside `flagFor`)
followed by the elements' renderings joined by single spaces, as one group. -/
theorem array_field_single_flag (pre : Option String) (k : String)
    (items : List Value) (rest : List (String × Value))
    (h : ∀ v ∈ items, isScalar v = true) :
    genObjectFields ((k, .arr items) :: rest) pre =
      (genObjectFields rest pre).map fun r =>
        flagFor (pre.getD "" ++ k) ++ (joinSpace (items.map leafRender) ++ " ") ++ r := by
  simp only [genObjectFields, convert_all_scalar items h, Option.some_bind]

/-- C4 witness: the repository's own test input `\x7b"key3": [1, 2, 3]\x7d`
(as a single field) produces one flag followed by the space-joined
elements. -/
theorem array_field_single_flag_witness :
    genObjectFields [("key3", Value.arr [.num "1", .num "2", .num "3"])] none
      = some "--key3 1 2 3 " := by
  rw [array_field_single_flag none "key3" _ [] (by decide)]
  simp only [genObjectFields]
  rfl

/-- C5: an object field whose value is a boolean (a type the flattener does
not dispatch on), and an array-valued field one of whose elements is itself
an object or array, each make the flattener hit the panic path (`none` in
this embedding), never a recoverable error value and never some malformed
result string. -/
theorem unsupported_shapes_panic :
    (∀ (pre : Option String) (fields : List (String × Value)) (k : String)
      (b : Bool), (k, Value.bool b) ∈ fields →
        generate_args_string (.obj fields) pre = none) ∧
    (∀ (pre : Option String) (fields : List (String × Value)) (k : String)
      (items : List Value) (e : Value), (k, Value.arr items) ∈ fields →
        e ∈ items → isContainer e = true →
        generate_args_string (.obj fields) pre = none) := by
  constructor
  · intro pre fields k b hmem
    simp only [generate_args_string]
    rw [genObjectFields_none_of_bad fields pre k _ hmem (Or.inl ⟨b, rfl⟩)]
    rfl
  · intro pre fields k items e hmem he hc
    simp only [generate_args_string]
    rw [genObjectFields_none_of_bad fields pre k _ hmem
      (Or.inr ⟨items, e, rfl, he, hc⟩)]
    rfl

/-- C5 witness: a boolean field and the repository's nested-array test input
both panic. -/
theorem unsupported_shapes_panic_witness :
    generate_args_string (.obj [("flag", .bool true)]) none = none ∧
    generate_args_string
      (.obj [("key3", .arr [.num "1", .arr [.num "4"]])]) none = none :=
  ⟨unsupported_shapes_panic.1 none _ "flag" true (List.Mem.head _),
   unsupported_shapes_panic.2 none _ "key3"
     [Value.num "1", Value.arr [Value.num "4"]] (Value.arr [Value.num "4"])
     (List.Mem.head _) (List.Mem.tail _ (List.Mem.head _)) rfl⟩

/-- C6 counterexample: a null-valued field still contributes its flag token:
flattening `\x7b"a": null\x7d` yields `"-a"`, not an empty contribution. -/
theorem null_field_counterexample :
    generate_args_string (.obj [("a", .null)]) none = some "-a" ∧
    ("-a" : String) ≠ "" := by
  constructor
  · simp only [generate_args_string, genObjectFields]
    rfl
  · decide

/-- C6 (amended): a null-valued field emits no value token and processing
skips to the next field, but its flag token is still emitted first unless
the underscore rule suppresses it; only then is its contribution empty. -/
theorem null_field_flag_only (pre : Option String) (k : String)
    (rest : List (String × Value)) :
    genObjectFields ((k, .null) :: rest) pre =
      (genObjectFields rest pre).map fun r =>
        if (pre.getD "" ++ k).data.head? = some '_' then r
        else flagToken (pre.getD "" ++ k) ++ " " ++ r := by
  by_cases hc : (pre.getD "" ++ k).data.head? = some '_'
  · simp only [genObjectFields, flagFor_eq_if, if_pos hc]
    cases genObjectFields rest pre <;> simp
  · simp only [genObjectFields, flagFor_eq_if, if_neg hc]

/-- C7 counterexample: the returned string can begin with whitespace — a
top-level string value with a leading space is returned with it, since the
flattener only right-trims. -/
theorem leading_whitespace_counterexample :
    generate_args_string (.str " x") none = some " x" ∧
    (" x" : String).data.head? = some ' ' ∧ Char.isWhitespace ' ' = true := by
  refine ⟨?_, by decide, by decide⟩
  decide

/-- C7 (amended): every string the flattener returns is right-trimmed of
trailing whitespace (trimming it again changes nothing); pieces are joined
with single separating spaces, but the result can begin with whitespace when
the first emitted piece itself does (for example a string value with a
leading space, or an empty nested object). -/
theorem result_right_trimmed (v : Value) (pre : Option String) (s : String)
    (h : generate_args_string v pre = some s) : trimEnd s = s := by
  cases v with
  | obj fields =>
    simp only [generate_args_string] at h
    cases hg : genObjectFields fields pre with
    | none => rw [hg] at h; cases h
    | some x =>
      rw [hg] at h
      simp only [Option.map_some', Option.some.injEq] at h
      rw [← h, trimEnd_idem]
  | arr items =>
    simp only [generate_args_string] at h
    cases hc : convert_vec_to_string_vec items with
    | none => rw [hc] at h; cases h
    | some l =>
      rw [hc] at h
      simp only [Option.map_some', Option.some.injEq] at h
      rw [← h, trimEnd_idem]
  | num r =>
    simp only [generate_args_string, Option.some.injEq] at h
    rw [← h, trimEnd_idem]
  | str s2 =>
    simp only [generate_args_string, Option.some.injEq] at h
    rw [← h, trimEnd_idem]
  | null =>
    simp only [generate_args_string, Option.some.injEq] at h
    rw [← h, trimEnd_idem]
  | bool b =>
    simp only [generate_args_string, Option.some.injEq] at h
    rw [← h, trimEnd_idem]

/-- C7 witness: the amended claim at `\x7b"a": 1\x7d`. -/
theorem result_right_trimmed_witness : trimEnd "-a 1" = "-a 1" :=
  result_right_trimmed (.obj [("a", .num "1")]) none "-a 1"
    (by simp only [generate_args_string, genObjectFields]; rfl)

/-- C8: a top-level array, number or string is rendered directly by the leaf
rules, with no flag token and no dependence on the prefix; a top-level null
or boolean produces the empty string rather than a failure. -/
theorem top_level_non_object_render :
    (∀ (pre : Option String) (items : List Value),
      (∀ v ∈ items, isScalar v = true) →
      generate_args_string (.arr items) pre
        = some (trimEnd (joinSpace (items.map leafRender)))) ∧
    (∀ (pre : Option String) (r : String),
      generate_args_string (.num r) pre = some (trimEnd r)) ∧
    (∀ (pre : Option String) (s : String),
      generate_args_string (.str s) pre = some (trimEnd s)) ∧
    (∀ pre : Option String, generate_args_string .null pre = some "") ∧
    (∀ (pre : Option String) (b : Bool),
      generate_args_string (.bool b) pre = some "") := by
  have htrim : trimEnd "" = "" := by decide
  refine ⟨?_, ?_, ?_, ?_, ?_⟩
  · intro pre items h
    simp only [generate_args_string, convert_all_scalar items h,
      Option.map_some', trimEnd_append_space]
  · intro pre r
    simp only [generate_args_string, trimEnd_append_space]
  · intro pre s
    simp only [generate_args_string, trimEnd_append_space]
  · intro pre
    simp only [generate_args_string, htrim]
  · intro pre b
    simp only [generate_args_string, htrim]

/-- C8 witness: the repository's own top-level-array test input `[1, 2, 3]`
renders directly with no flag. -/
theorem top_level_non_object_render_witness :
    generate_args_string (.arr [.num "1", .num "2", .num "3"]) none
      = some "1 2 3" := by
  rw [top_level_non_object_render.1 none _ (by decide)]
  rfl

/-- C9: the template pass fails — with a recoverable error value, in contrast
with the flattener's panics — exactly when the body's control markup is
unterminated or unbalanced, and returns the rendered string otherwise. -/
theorem template_error_iff_unbalanced (t : String) :
    ((∃ e, eval_as_tera_template t = .error e) ↔ ¬ BalancedTemplate t) ∧
    (BalancedTemplate t → eval_as_tera_template t = .ok (renderModel t)) := by
  unfold eval_as_tera_template
  by_cases h : tagsWellFormed t = true
  · rw [if_pos h]
    have hb := (tagsWellFormed_iff t).mp h
    constructor
    · constructor
      · rintro ⟨e, he⟩
        cases he
      · intro hn
        exact absurd hb hn
    · intro _
      rfl
  · rw [if_neg h]
    have hb : ¬ BalancedTemplate t := fun hbb => h ((tagsWellFormed_iff t).mpr hbb)
    constructor
    · constructor
      · intro _
        exact hb
      · intro _
        exact ⟨TemplateError.badTemplate, rfl⟩
    · intro hbb
      exact absurd hbb hb

/-- C9 witness: a body with no control tags is balanced and renders
successfully. -/
theorem template_error_iff_unbalanced_witness :
    eval_as_tera_template "a" = .ok (renderModel "a") := by
  apply (template_error_iff_unbalanced "a").2
  refine ⟨[], ?_, by simp, fun i => by simp⟩
  rw [show ("a" : String).data = ['a'] from rfl]
  simp [scanTags]

/-- C10: the flattener terminates on every finite value: a recursion budget
of the value's size is enough for the fuel-indexed version of the loop to
finish and agree with the recursive definition, for every input. -/
theorem flatten_terminates (v : Value) (pre : Option String) :
    ∃ n, generate_args_string_fuel n v pre
      = some (generate_args_string v pre) := by
  cases v with
  | obj fields =>
    refine ⟨sizeOf fields + 1, ?_⟩
    simp only [generate_args_string_fuel, generate_args_string,
      genObjectFieldsFuel_spec (sizeOf fields + 1) fields pre (by omega),
      Option.map_some']
  | arr items => exact ⟨1, rfl⟩
  | num r => exact ⟨1, rfl⟩
  | str s => exact ⟨1, rfl⟩
  | null => exact ⟨1, rfl⟩
  | bool b => exact ⟨1, rfl⟩

end Cargo2Args
